import Mathlib

/-!
Verification development for the claude-proxy repository.

The definitions below are shallow embeddings of the Python source under
`src/claude_proxy/` (file/line references are given on each definition).
Content blocks are modelled in their parsed (pydantic) form, which is the
shape the live request path produces: the `isinstance(part, dict)` branches
of the source are unreachable for message content because pydantic has
already validated the payload into typed objects.
-/

/-! ## String helpers

Python's `needle in haystack` substring test and `str.lower`, modelled over
`List Char`. -/

/-- Check that `needle` occurs at the head of `hay` (character-wise). -/
def strMatchAt : List Char → List Char → Bool
  | [], _ => true
  | _ :: _, [] => false
  | a :: as, b :: bs => a == b && strMatchAt as bs

/-- Check that `needle` occurs somewhere in `hay` (Python `needle in hay`). -/
def listHasSub (needle : List Char) : List Char → Bool
  | [] => strMatchAt needle []
  | c :: rest => strMatchAt needle (c :: rest) || listHasSub needle rest

/-- Python substring test `needle in hay` on strings. -/
def containsSub (hay needle : String) : Bool :=
  listHasSub needle.data hay.data

/-- Python `str.lower`, character-wise. -/
def lowerStr (s : String) : String :=
  ⟨s.data.map Char.toLower⟩

/-! ## Model alias resolver

Embeds `config.py` lines 45-81 (`get_model_mapping` / `map_claude_model`).
The settings singleton is replaced by explicit `big_model` / `small_model`
arguments. -/

/-- The exact-match table of `get_model_mapping` (config.py lines 45-63). -/
def get_model_mapping (big_model small_model : String) : List (String × String) :=
  [ ("claude-3-haiku", small_model),
    ("claude-3-haiku-20240307", small_model),
    ("claude-3-sonnet", big_model),
    ("claude-3-sonnet-20240229", big_model),
    ("claude-3-5-sonnet", big_model),
    ("claude-3-5-sonnet-20241022", big_model),
    ("claude-3-opus", big_model),
    ("claude-3-opus-20240229", big_model),
    ("claude-sonnet-4-20250514", big_model) ]

/-- The resolver `map_claude_model` (config.py lines 66-81): exact table lookup, then
case-insensitive substring fallback ("haiku" → small, "sonnet"/"opus" → big),
defaulting to the big model. -/
def map_claude_model (big_model small_model claude_model : String) : String :=
  match (get_model_mapping big_model small_model).lookup claude_model with
  | some target => target
  | none =>
    if containsSub (lowerStr claude_model) "haiku" then small_model
    else if containsSub (lowerStr claude_model) "sonnet"
         || containsSub (lowerStr claude_model) "opus" then big_model
    else big_model

/-! ## Finish-reason conversion

Embeds `OpenAIProvider._convert_finish_reason` (providers/openai.py lines
369-381). -/

/-- The function `_convert_finish_reason`: maps an optional backend finish reason to the
source-protocol stop reason; unknown values default to `end_turn`, `None`
passes through. -/
def convert_finish_reason : Option String → Option String
  | none => none
  | some r =>
    if r = "stop" then some "end_turn"
    else if r = "length" then some "max_tokens"
    else if r = "function_call" then some "tool_use"
    else if r = "tool_calls" then some "tool_use"
    else if r = "content_filter" then some "stop_sequence"
    else some "end_turn"

/-! ## Source-protocol (Claude) data model

Embeds the pydantic models of `models/claude.py` in structural form. `Json`
stands for Python's `Dict[str, Any]`-style values, with `dumps` playing the
role of `json.dumps`. -/

/-- A JSON value (for tool inputs). -/
inductive Json where
  | null : Json
  | bool (b : Bool) : Json
  | num (n : Int) : Json
  | str (s : String) : Json
  | arr (xs : List Json) : Json
  | obj (fields : List (String × Json)) : Json

mutual

/-- A minimal `json.dumps` used only to serialize tool inputs. -/
def Json.dumps : Json → String
  | .null => "null"
  | .bool true => "true"
  | .bool false => "false"
  | .num n => toString n
  | .str s => "\"" ++ s ++ "\""
  | .arr xs => "[" ++ Json.dumpsList xs ++ "]"
  | .obj fs => "\x7b" ++ Json.dumpsObj fs ++ "\x7d"

/-- Serialize a JSON array body. -/
def Json.dumpsList : List Json → String
  | [] => ""
  | [x] => Json.dumps x
  | x :: y :: rest => Json.dumps x ++ ", " ++ Json.dumpsList (y :: rest)

/-- Serialize a JSON object body. -/
def Json.dumpsObj : List (String × Json) → String
  | [] => ""
  | [(k, v)] => "\"" ++ k ++ "\": " ++ Json.dumps v
  | (k, v) :: f :: rest =>
      "\"" ++ k ++ "\": " ++ Json.dumps v ++ ", " ++ Json.dumpsObj (f :: rest)

end

/-- An item inside a `tool_result`'s list-shaped `content`
(`List[Dict[str, Any]]` in `ClaudeToolResultContent`): a dict with
`type == "text"` contributes its `text` (default `""`), anything else is
ignored by the flattening loops. -/
inductive TRItem where
  | textItem (text : String) : TRItem
  | otherItem : TRItem
deriving DecidableEq, Repr

/-- The field `ClaudeToolResultContent.content : Optional[Union[str, List[Dict]]]`. -/
inductive TRContent where
  | null : TRContent
  | str (s : String) : TRContent
  | items (l : List TRItem) : TRContent
deriving DecidableEq, Repr

/-- A parsed Claude content block (`models/claude.py` lines 7-34). The image
source payload is irrelevant to every claim and is elided. -/
inductive ContentBlock where
  | text (text : String) : ContentBlock
  | image : ContentBlock
  | tool_use (id name : String) (input : Json) : ContentBlock
  | tool_result (tool_use_id : String) (content : TRContent) : ContentBlock

/-- The model `ClaudeMessage` (models/claude.py lines 37-42): role plus string-or-blocks
content. -/
structure ClaudeMessage where
  role : String
  content : Sum String (List ContentBlock)

/-- One entry of a block-shaped system prompt (`Optional[Union[str,
List[Dict[str, Any]]]]`): a raw dict with a `type` and an optional `text`
key. -/
structure SystemBlock where
  type : String
  text : Option String
deriving DecidableEq, Repr

/-- The system prompt: absent, a plain string, or a list of raw dict
blocks. -/
inductive SystemPrompt where
  | absent : SystemPrompt
  | str (s : String) : SystemPrompt
  | blocks (bs : List SystemBlock) : SystemPrompt
deriving DecidableEq, Repr

/-- Python truthiness of `request.system` (`if request.system:`): `None`,
`""` and `[]` are falsy. -/
def SystemPrompt.truthy : SystemPrompt → Bool
  | .absent => false
  | .str s => s ≠ ""
  | .blocks bs => bs ≠ []

/-- The fields of `ClaudeMessagesRequest` consumed by the message-building
part of `convert_request` and by `count_tokens`. -/
structure ClaudeRequest where
  model : String
  max_tokens : Nat
  messages : List ClaudeMessage
  system : SystemPrompt

/-! ## Token counting

Embeds the body of the `count_tokens` endpoint (main.py lines 174-210). -/

/-- Character count of the system prompt (main.py lines 184-190): a string
counts its length; a block list counts `len(block["text"])` for every dict
block that has a `text` key. -/
def systemChars : SystemPrompt → Nat
  | .absent => 0
  | .str s => s.length
  | .blocks bs => bs.foldl (fun acc b => acc + (b.text.map String.length).getD 0) 0

/-- Character count of one message (main.py lines 193-201): string content
counts its length; block content counts the text of text blocks (the only
pydantic block type with a `text` attribute). -/
def messageChars (m : ClaudeMessage) : Nat :=
  match m.content with
  | .inl s => s.length
  | .inr blocks =>
    blocks.foldl
      (fun acc b => acc + match b with | .text t => t.length | _ => 0) 0

/-- The `count_tokens` endpoint result (main.py lines 180-206):
`max(1, total_chars // 4)`. -/
def count_tokens (req : ClaudeRequest) : Nat :=
  let total_chars := systemChars req.system +
    req.messages.foldl (fun acc m => acc + messageChars m) 0
  max 1 (total_chars / 4)

/-- Character total as the specification words it: the characters of the
system prompt's text content plus the characters of the messages' text
content, written as plain sums. -/
def specCharTotal (req : ClaudeRequest) : Nat :=
  (match req.system with
   | .absent => 0
   | .str s => s.length
   | .blocks bs => (bs.map (fun b => (b.text.map String.length).getD 0)).sum) +
  (req.messages.map (fun m =>
    match m.content with
    | .inl s => s.length
    | .inr blocks =>
      (blocks.map (fun b => match b with | .text t => t.length | _ => 0)).sum)).sum

/-! ## Theorems for claims C4, C5, C9 -/

theorem foldl_add_eq_sum (f : α → Nat) (l : List α) (n : Nat) :
    l.foldl (fun acc x => acc + f x) n = n + (l.map f).sum := by
  induction l generalizing n with
  | nil => simp
  | cons x xs ih => simp [List.foldl_cons, ih, Nat.add_assoc]

theorem systemChars_eq (s : SystemPrompt) :
    systemChars s = match s with
      | .absent => 0
      | .str str => str.length
      | .blocks bs => (bs.map (fun b => (b.text.map String.length).getD 0)).sum := by
  cases s with
  | absent => rfl
  | str s => rfl
  | blocks bs => simpa [systemChars] using foldl_add_eq_sum _ bs 0

theorem messageChars_eq (m : ClaudeMessage) :
    messageChars m = match m.content with
      | .inl s => s.length
      | .inr blocks =>
        (blocks.map (fun b => match b with | .text t => t.length | _ => 0)).sum := by
  cases m with
  | mk role content =>
    cases content with
    | inl s => rfl
    | inr blocks => simpa [messageChars] using foldl_add_eq_sum _ blocks 0

/-- Claim C9: for every token-count request, the `count_tokens` endpoint
returns `inputTokens = max(1, floor(C / 4))`, where `C` is the total number
of characters across the system prompt's text content and the messages'
text content. -/
theorem count_tokens_is_char_heuristic (req : ClaudeRequest) :
    count_tokens req = max 1 (specCharTotal req / 4) := by
  unfold count_tokens specCharTotal
  rw [systemChars_eq, foldl_add_eq_sum]
  simp only [Nat.zero_add]
  have hmap : ∀ ms : List ClaudeMessage, List.map messageChars ms =
      List.map (fun m =>
        match m.content with
        | .inl s => s.length
        | .inr blocks =>
          (blocks.map (fun b => match b with | .text t => t.length | _ => 0)).sum) ms := by
    intro ms
    induction ms with
    | nil => rfl
    | cons m ms ih => simp only [List.map_cons, messageChars_eq, ih]
  rw [hmap]

/-- Claim C5: `_convert_finish_reason` is total over any optional string and
maps "stop"→"end_turn", "length"→"max_tokens", "function_call"→"tool_use",
"tool_calls"→"tool_use", "content_filter"→"stop_sequence", any other
non-null string→"end_turn", and null→null. -/
theorem convert_finish_reason_table :
    convert_finish_reason none = none ∧
    convert_finish_reason (some "stop") = some "end_turn" ∧
    convert_finish_reason (some "length") = some "max_tokens" ∧
    convert_finish_reason (some "function_call") = some "tool_use" ∧
    convert_finish_reason (some "tool_calls") = some "tool_use" ∧
    convert_finish_reason (some "content_filter") = some "stop_sequence" ∧
    ∀ s : String, s ∉ ["stop", "length", "function_call", "tool_calls",
        "content_filter"] →
      convert_finish_reason (some s) = some "end_turn" := by
  refine ⟨rfl, rfl, rfl, rfl, rfl, rfl, ?_⟩
  intro s hs
  simp only [List.mem_cons, List.mem_singleton, not_or] at hs
  obtain ⟨h1, h2, h3, h4, h5, -⟩ := hs
  simp [convert_finish_reason, h1, h2, h3, h4, h5]

/-- Witness for C5: the default branch evaluated at a concrete unknown
reason. -/
theorem convert_finish_reason_table_witness :
    convert_finish_reason (some "weird_reason") = some "end_turn" := by
  exact convert_finish_reason_table.2.2.2.2.2.2 "weird_reason" (by decide)

/-- Whether the lowercased identifier contains "haiku". -/
def hasHaiku (m : String) : Bool := containsSub (lowerStr m) "haiku"

/-- Whether the lowercased identifier contains "sonnet" or "opus". -/
def hasSonnetOrOpus (m : String) : Bool :=
  containsSub (lowerStr m) "sonnet" || containsSub (lowerStr m) "opus"

theorem lookup_consistent (f : String → String) (tbl : List (String × String))
    (htbl : ∀ kv ∈ tbl, kv.2 = f kv.1) :
    ∀ m v, tbl.lookup m = some v → v = f m := by
  induction tbl with
  | nil => intro m v h; simp [List.lookup] at h
  | cons kv rest ih =>
    intro m v h
    rw [List.lookup] at h
    rcases hbeq : m == kv.1 with _ | _
    · rw [hbeq] at h
      exact ih (fun x hx => htbl x (List.mem_cons_of_mem _ hx)) m v h
    · rw [hbeq] at h
      have hm : m = kv.1 := eq_of_beq hbeq
      have hv : v = kv.2 := by injection h with h'; exact h'.symm
      rw [hv, hm]
      exact htbl kv (List.mem_cons_self _ _)

theorem map_claude_model_if (big small m : String) :
    map_claude_model big small m = if hasHaiku m then small else big := by
  unfold map_claude_model
  cases hlk : (get_model_mapping big small).lookup m with
  | some v =>
    simp only
    refine lookup_consistent (fun k => if hasHaiku k then small else big)
      (get_model_mapping big small) ?_ m v hlk
    intro kv hkv
    unfold get_model_mapping at hkv
    fin_cases hkv <;> rfl
  | none =>
    simp only [hasHaiku]
    by_cases hh : containsSub (lowerStr m) "haiku" <;>
      by_cases hs : containsSub (lowerStr m) "sonnet" ||
        containsSub (lowerStr m) "opus" <;>
      simp [hh, hs]

/-- Claim C4: the model resolver is total and returns the small target for
identifiers containing "haiku" (case-insensitively), the big target for
identifiers containing "sonnet" or "opus", and the big target for every
other identifier (clauses read in order, first match winning). -/
theorem map_claude_model_cases (big small m : String) :
    (hasHaiku m = true → map_claude_model big small m = small) ∧
    (hasHaiku m = false → hasSonnetOrOpus m = true →
      map_claude_model big small m = big) ∧
    (hasHaiku m = false → hasSonnetOrOpus m = false →
      map_claude_model big small m = big) := by
  refine ⟨?_, ?_, ?_⟩ <;> intro h <;>
    simp [map_claude_model_if, h]

/-- Witness for C4: the three clauses at concrete identifiers and targets. -/
theorem map_claude_model_cases_witness :
    map_claude_model "gpt-4o" "gpt-4o-mini" "claude-3-5-haiku-20241022" = "gpt-4o-mini" ∧
    map_claude_model "gpt-4o" "gpt-4o-mini" "claude-opus-4-20250514" = "gpt-4o" ∧
    map_claude_model "gpt-4o" "gpt-4o-mini" "totally-unknown-model" = "gpt-4o" := by
  refine ⟨?_, ?_, ?_⟩
  · exact (map_claude_model_cases "gpt-4o" "gpt-4o-mini" "claude-3-5-haiku-20241022").1
      (by decide)
  · exact (map_claude_model_cases "gpt-4o" "gpt-4o-mini" "claude-opus-4-20250514").2.1
      (by decide) (by decide)
  · exact (map_claude_model_cases "gpt-4o" "gpt-4o-mini" "totally-unknown-model").2.2
      (by decide) (by decide)

/-! ## Request conversion (messages part)

Embeds the message-list construction of `OpenAIProvider.convert_request`
(providers/openai.py lines 29-209), on the parsed (pydantic) block shapes
produced by request validation. -/

/-- Flatten a tool result's content (openai.py lines 188-194 / 97-104 and
the final `str(result_content)`): a string passes through, a list
concatenates the `text` of its `type == "text"` dict items, and Python's
`str(None)` renders an absent content as `"None"`. -/
def flattenToolResult : TRContent → String
  | .null => "None"
  | .str s => s
  | .items l =>
    l.foldl (fun acc i => acc ++ match i with | .textItem t => t | .otherItem => "") ""

/-- A backend content part (`{type:"text"}` / `{type:"image_url"}`). -/
inductive OAIPart where
  | text (text : String) : OAIPart
  | image_url (url : String) : OAIPart
deriving DecidableEq, Repr

/-- A backend message `content` value: JSON null, a string, or a part
list. -/
inductive OAIContent where
  | null : OAIContent
  | str (s : String) : OAIContent
  | parts (ps : List OAIPart) : OAIContent
deriving DecidableEq, Repr

/-- One backend tool call entry (openai.py lines 120-127); the constant
`"type": "function"` field is elided. -/
structure OAIToolCall where
  id : String
  name : String
  arguments : String
deriving DecidableEq, Repr

/-- A backend chat message; `tool_calls`/`tool_call_id` are `none` when the
key is absent from the produced dict. -/
structure OAIMessage where
  role : String
  content : OAIContent
  tool_calls : Option (List OAIToolCall)
  tool_call_id : Option String
deriving DecidableEq, Repr

/-- The `content_parts` accumulated by the block loop (openai.py lines
64-154, pydantic branches): text blocks map to text parts, tool results map
to text parts holding their flattened content, pydantic image and tool_use
blocks contribute nothing. -/
def contentParts (blocks : List ContentBlock) : List OAIPart :=
  blocks.filterMap fun b =>
    match b with
    | .text t => some (.text t)
    | .image => none
    | .tool_use _ _ _ => none
    | .tool_result _ c => some (.text (flattenToolResult c))

/-- The `tool_calls` accumulated by the block loop (openai.py lines
128-139). -/
def extractToolCalls (blocks : List ContentBlock) : List OAIToolCall :=
  blocks.filterMap fun b =>
    match b with
    | .tool_use id name input => some ⟨id, name, input.dumps⟩
    | _ => none

/-- The `has_tool_use` flag (openai.py lines 54, 119, 131). -/
def hasToolUse (blocks : List ContentBlock) : Bool :=
  blocks.any fun b => match b with | .tool_use _ _ _ => true | _ => false

/-- The `has_tool_results` flag (openai.py lines 58, 142). -/
def hasToolResults (blocks : List ContentBlock) : Bool :=
  blocks.any fun b => match b with | .tool_result _ _ => true | _ => false

/-- The separate `{role:"tool"}` messages created for tool results
(openai.py lines 166-202, pydantic branch). -/
def toolResultMessages (blocks : List ContentBlock) : List OAIMessage :=
  blocks.filterMap fun b =>
    match b with
    | .tool_result tuid c => some ⟨"tool", .str (flattenToolResult c), none, some tuid⟩
    | _ => none

/-- Content of an assistant message that carries tool calls (openai.py lines
160-165): the first text part's text if non-empty, else JSON null. -/
def firstTextContent (ps : List OAIPart) : OAIContent :=
  match ps.filter (fun p => match p with | .text _ => true | _ => false) with
  | [] => .null
  | p :: _ => match p with
    | .text t => if t = "" then .null else .str t
    | _ => .null

/-- Conversion of one source message into backend messages (openai.py lines
50-209). -/
def convertOne (msg : ClaudeMessage) : List OAIMessage :=
  match msg.content with
  | .inl s => [⟨msg.role, .str s, none, none⟩]
  | .inr blocks =>
    if hasToolUse blocks then
      [⟨msg.role, firstTextContent (contentParts blocks),
        some (extractToolCalls blocks), none⟩]
    else if hasToolResults blocks then
      toolResultMessages blocks
    else
      [⟨msg.role,
        (if contentParts blocks = [] then .str "" else .parts (contentParts blocks)),
        none, none⟩]

/-- Concatenated text of the `type == "text"` blocks of a block-shaped
system prompt (openai.py lines 38-41). -/
def systemTextConcat (bs : List SystemBlock) : String :=
  bs.foldl (fun acc b => acc ++ (if b.type = "text" then b.text.getD "" else "")) ""

/-- The system message prepended by `convert_request` (openai.py lines
33-47); nothing is added when `request.system` is falsy. -/
def systemMessages (sys : SystemPrompt) : List OAIMessage :=
  if sys.truthy then
    match sys with
    | .absent => []
    | .str s => [⟨"system", .str s, none, none⟩]
    | .blocks bs => [⟨"system", .str (systemTextConcat bs), none, none⟩]
  else []

/-- The full backend message list built by `convert_request` (openai.py
lines 31-209). -/
def convert_request_messages (req : ClaudeRequest) : List OAIMessage :=
  systemMessages req.system ++ req.messages.flatMap convertOne

/-! ## Theorems for claims C3, C6, C10 -/

theorem hasToolUse_of_toolResults (trs : List (String × TRContent)) :
    hasToolUse (trs.map fun p => ContentBlock.tool_result p.1 p.2) = false := by
  induction trs with
  | nil => rfl
  | cons p rest ih => simpa [hasToolUse] using ih

theorem hasToolResults_of_toolResults (trs : List (String × TRContent)) (h : trs ≠ []) :
    hasToolResults (trs.map fun p => ContentBlock.tool_result p.1 p.2) = true := by
  cases trs with
  | nil => exact absurd rfl h
  | cons p rest => simp [hasToolResults]

theorem toolResultMessages_of_toolResults (trs : List (String × TRContent)) :
    toolResultMessages (trs.map fun p => ContentBlock.tool_result p.1 p.2) =
      trs.map (fun p => OAIMessage.mk "tool" (.str (flattenToolResult p.2)) none (some p.1)) := by
  induction trs with
  | nil => rfl
  | cons p rest ih => simp [toolResultMessages] at ih ⊢; exact ih

/-- Claim C3: a source message whose block content is exactly a (non-empty)
sequence of ToolResult blocks is replaced by one backend `role:"tool"`
message per ToolResult, in order, each carrying the flattened result text
and the result's `toolUseId` as `tool_call_id`; the original message is not
emitted, no other-role message is contributed for it, and ordering relative
to surrounding messages is preserved. -/
theorem convert_request_tool_result_expansion
    (req : ClaudeRequest) (pre post : List ClaudeMessage)
    (trs : List (String × TRContent)) (msg : ClaudeMessage)
    (hmsg : msg.content = .inr (trs.map fun p => ContentBlock.tool_result p.1 p.2))
    (hne : trs ≠ [])
    (hreq : req.messages = pre ++ msg :: post) :
    convert_request_messages req =
      systemMessages req.system ++ (pre.flatMap convertOne)
      ++ trs.map (fun p => OAIMessage.mk "tool" (.str (flattenToolResult p.2)) none (some p.1))
      ++ (post.flatMap convertOne) := by
  have hconv : convertOne msg =
      trs.map (fun p => OAIMessage.mk "tool" (.str (flattenToolResult p.2)) none (some p.1)) := by
    unfold convertOne
    rw [hmsg]
    simp only [hasToolUse_of_toolResults, hasToolResults_of_toolResults trs hne,
      Bool.false_eq_true, if_false, if_true, toolResultMessages_of_toolResults]
  unfold convert_request_messages
  rw [hreq, List.flatMap_append, List.flatMap_cons, hconv]
  simp [List.append_assoc]

/-- Witness for C3: the spec's own two-result example evaluated
concretely. -/
theorem convert_request_tool_result_expansion_witness :
    convert_request_messages
      ⟨"m", 5,
        [⟨"user", .inr [ContentBlock.tool_result "t1" (.str "r1"),
                        ContentBlock.tool_result "t2" (.str "r2")]⟩],
        .absent⟩ =
      [⟨"tool", .str "r1", none, some "t1"⟩, ⟨"tool", .str "r2", none, some "t2"⟩] := by
  have h := convert_request_tool_result_expansion
    ⟨"m", 5,
      [⟨"user", .inr [ContentBlock.tool_result "t1" (.str "r1"),
                      ContentBlock.tool_result "t2" (.str "r2")]⟩],
      .absent⟩
    [] []
    [("t1", TRContent.str "r1"), ("t2", TRContent.str "r2")]
    ⟨"user", .inr [ContentBlock.tool_result "t1" (.str "r1"),
                   ContentBlock.tool_result "t2" (.str "r2")]⟩
    rfl (by simp) rfl
  simpa using h

theorem convertOne_role (msg : ClaudeMessage) (m' : OAIMessage)
    (h : m' ∈ convertOne msg) : m'.role = msg.role ∨ m'.role = "tool" := by
  unfold convertOne at h
  cases hc : msg.content with
  | inl s =>
    rw [hc] at h
    simp only [List.mem_singleton] at h
    left; rw [h]
  | inr blocks =>
    rw [hc] at h
    by_cases h1 : hasToolUse blocks
    · simp only [h1, if_true, List.mem_singleton] at h
      left; rw [h]
    · by_cases h2 : hasToolResults blocks
      · simp only [h1, h2, Bool.false_eq_true, if_false, if_true] at h
        unfold toolResultMessages at h
        rw [List.mem_filterMap] at h
        obtain ⟨b, _, hbm⟩ := h
        cases b with
        | text t => simp at hbm
        | image => simp at hbm
        | tool_use id name input => simp at hbm
        | tool_result tuid c =>
          simp only [Option.some_inj] at hbm
          right; rw [← hbm]
      · simp only [h1, h2, Bool.false_eq_true, if_false, List.mem_singleton] at h
        left; rw [h]

/-- Counterexample for C6: a request whose system prompt is a non-empty
block list with empty text concatenation still yields a system-role entry
(with empty content), contrary to the claim that it is omitted. -/
theorem convert_request_empty_system_concat_not_omitted :
    systemTextConcat [⟨"text", some ""⟩] = "" ∧
    (convert_request_messages
      ⟨"m", 1, [⟨"user", .inl "hi"⟩], .blocks [⟨"text", some ""⟩]⟩).countP
        (fun m' => m'.role == "system") = 1 := by
  exact ⟨rfl, rfl⟩

/-- Claim C6 (amended): when the system prompt is a block sequence, the
text of its `Text` blocks is concatenated into a single system message,
and the system entry is omitted exactly when `request.system` itself is
falsy (`None`, `""`, or `[]`); a non-empty block list always contributes a
system message, even when the concatenation is empty. In particular
`system=[]` and `system=""` yield no system-role entry. -/
theorem convert_request_system_handling (req : ClaudeRequest)
    (hroles : ∀ m ∈ req.messages, m.role ≠ "system") :
    (∀ bs, req.system = .blocks bs → bs ≠ [] →
      convert_request_messages req =
        ⟨"system", .str (systemTextConcat bs), none, none⟩
          :: req.messages.flatMap convertOne) ∧
    (req.system = .blocks [] ∨ req.system = .str "" ∨ req.system = .absent →
      ∀ m' ∈ convert_request_messages req, m'.role ≠ "system") := by
  constructor
  · intro bs hbs hne
    unfold convert_request_messages systemMessages
    rw [hbs]
    simp [SystemPrompt.truthy, hne]
  · intro hcase m' hm'
    have hsys : systemMessages req.system = [] := by
      rcases hcase with h | h | h <;> rw [h] <;> rfl
    unfold convert_request_messages at hm'
    rw [hsys, List.nil_append, List.mem_flatMap] at hm'
    obtain ⟨msg, hmsg, hm'⟩ := hm'
    rcases convertOne_role msg m' hm' with h | h
    · rw [h]; exact hroles msg hmsg
    · rw [h]; decide

/-- Witness for C6 (amended): both clauses at concrete requests. -/
theorem convert_request_system_handling_witness :
    convert_request_messages
      ⟨"m", 1, [⟨"user", .inl "hi"⟩], .blocks [⟨"text", some "sys"⟩]⟩ =
      [⟨"system", .str "sys", none, none⟩, ⟨"user", .str "hi", none, none⟩] ∧
    ∀ m' ∈ convert_request_messages ⟨"m", 1, [⟨"user", .inl "hi"⟩], .str ""⟩,
      m'.role ≠ "system" := by
  constructor
  · have h := (convert_request_system_handling
      ⟨"m", 1, [⟨"user", .inl "hi"⟩], .blocks [⟨"text", some "sys"⟩]⟩
      (by intro m hm; simp at hm; rw [hm]; decide)).1
      [⟨"text", some "sys"⟩] rfl (by simp)
    rw [h]; rfl
  · exact (convert_request_system_handling
      ⟨"m", 1, [⟨"user", .inl "hi"⟩], .str ""⟩
      (by intro m hm; simp at hm; rw [hm]; decide)).2 (Or.inr (Or.inl rfl))

/-- Claim C10: a source message whose block content contains a ToolUse
block is converted to a single backend message carrying the extracted
`tool_calls` (the ToolUse branch takes precedence over the ToolResult
branch), no `role:"tool"` message is emitted for it, and any ToolResult
blocks in the same content are flattened into its text content parts. -/
theorem convert_request_tool_use_precedence
    (role : String) (blocks : List ContentBlock)
    (htu : ∃ id name input, ContentBlock.tool_use id name input ∈ blocks)
    (hrole : role ≠ "tool") :
    convertOne ⟨role, .inr blocks⟩ =
      [⟨role, firstTextContent (contentParts blocks),
        some (extractToolCalls blocks), none⟩] ∧
    extractToolCalls blocks ≠ [] ∧
    (∀ m' ∈ convertOne ⟨role, .inr blocks⟩,
      m'.role ≠ "tool" ∧ m'.tool_call_id = none) ∧
    (∀ tuid c, ContentBlock.tool_result tuid c ∈ blocks →
      OAIPart.text (flattenToolResult c) ∈ contentParts blocks) := by
  obtain ⟨id, name, input, hmem⟩ := htu
  have htu' : hasToolUse blocks = true := by
    unfold hasToolUse
    rw [List.any_eq_true]
    exact ⟨_, hmem, rfl⟩
  have heq : convertOne ⟨role, .inr blocks⟩ =
      [⟨role, firstTextContent (contentParts blocks),
        some (extractToolCalls blocks), none⟩] := by
    unfold convertOne
    simp [htu']
  refine ⟨heq, ?_, ?_, ?_⟩
  · have hm : (⟨id, name, input.dumps⟩ : OAIToolCall) ∈ extractToolCalls blocks :=
      List.mem_filterMap.mpr ⟨_, hmem, rfl⟩
    exact List.ne_nil_of_mem hm
  · intro m' hm'
    rw [heq, List.mem_singleton] at hm'
    rw [hm']
    exact ⟨hrole, rfl⟩
  · intro tuid c hc
    exact List.mem_filterMap.mpr ⟨_, hc, rfl⟩

/-- Witness for C10: a message mixing a ToolUse and a ToolResult block
yields one assistant message with tool calls and the flattened tool-result
text as content, and no tool-role message. -/
theorem convert_request_tool_use_precedence_witness :
    convertOne ⟨"assistant",
      .inr [ContentBlock.tool_use "id1" "f" (Json.obj []),
            ContentBlock.tool_result "t1" (TRContent.str "out")]⟩ =
      [⟨"assistant", .str "out",
        some [⟨"id1", "f", Json.dumps (Json.obj [])⟩], none⟩] := by
  have h := (convert_request_tool_use_precedence "assistant"
    [ContentBlock.tool_use "id1" "f" (Json.obj []),
     ContentBlock.tool_result "t1" (TRContent.str "out")]
    ⟨"id1", "f", Json.obj [], by simp⟩ (by decide)).1
  rw [h]; rfl

/-! ## Streaming re-framer

Embeds `OpenAIProvider.stream_complete` (providers/openai.py lines 435-663)
over parsed backend chunks. A chunk models a successfully JSON-decoded
`data:` line; unparseable lines and the `[DONE]` sentinel are skipped or
end the input and so never reach this logic. Python string/dict truthiness
is modelled by `""` / `[]` / `none` defaults as noted on each field. -/

/-- The function `classify_error` (providers/base.py lines 79-96). -/
def classify_error (error_message : String) (status_code : Option Nat) : String :=
  if status_code = some 401 then "Invalid API key. Please check your credentials."
  else if status_code = some 429 then "Rate limit exceeded. Please try again later."
  else if status_code = some 400 then "Bad request. Please check your input parameters."
  else if status_code = some 500 then "Internal server error. Please try again later."
  else if containsSub (lowerStr error_message) "timeout" then
    "Request timeout. Please try again."
  else if containsSub (lowerStr error_message) "connection" then
    "Connection error. Please check your network."
  else "API Error: " ++ error_message

/-- The `function` field of a streamed tool-call fragment; `""` models an
absent (or empty, equally falsy) `name`/`arguments` key. -/
structure ToolCallFunction where
  name : String
  arguments : String
deriving DecidableEq, Repr

/-- One entry of a chunk delta's `tool_calls` list: `index` defaults to 0,
`id` to `""` when absent. -/
structure ToolCallDelta where
  index : Nat
  id : String
  function : Option ToolCallFunction
deriving DecidableEq, Repr

/-- A chunk choice's `delta`: `content` is `""` when absent or null,
`tool_calls` is `[]` when absent. -/
structure ChunkDelta where
  content : String
  tool_calls : List ToolCallDelta
deriving DecidableEq, Repr

/-- One entry of a chunk's `choices` list. -/
structure ChunkChoice where
  delta : ChunkDelta
  finish_reason : Option String
deriving DecidableEq, Repr

/-- A chunk's `usage` object; `none` fields model absent keys. -/
structure ChunkUsage where
  prompt_tokens : Option Nat
  completion_tokens : Option Nat
deriving DecidableEq, Repr

/-- A parsed backend streaming chunk; `choices = []` models a missing,
non-list or empty `choices` entry (the guard at openai.py lines 494-501
skips such chunks), `usage = none` a missing or falsy `usage`. -/
structure StreamChunk where
  choices : List ChunkChoice
  usage : Option ChunkUsage
deriving DecidableEq, Repr

/-- Payload of a `content_block_start` event: a text block (its `text` is
always `""`) or a tool-use block (its `input` is always `{}`). -/
inductive BlockStart where
  | text : BlockStart
  | tool_use (id name : String) : BlockStart
deriving DecidableEq, Repr

/-- Payload of a `content_block_delta` event. -/
inductive DeltaPayload where
  | text_delta (text : String) : DeltaPayload
  | input_json_delta (fragment : String) : DeltaPayload
deriving DecidableEq, Repr

/-- A source-protocol streaming event, with the payload fields the claims
inspect (the `message_start` body carries the request model; its generated
message id and zeroed usage are elided). -/
inductive Event where
  | message_start (model : String) : Event
  | content_block_start (index : Nat) (content_block : BlockStart) : Event
  | content_block_delta (index : Nat) (delta : DeltaPayload) : Event
  | content_block_stop (index : Nat) : Event
  | message_delta (stop_reason : Option String) (output_tokens : Nat) : Event
  | message_stop : Event
  | error (etype message : String) : Event
deriving DecidableEq, Repr

/-- One entry of `tool_calls_accumulator` (openai.py lines 543-549). -/
structure ToolAcc where
  id : String
  name : String
  arguments : String
  started : Bool
deriving DecidableEq, Repr

/-- The mutable state of the streaming loop (openai.py lines 458-462). -/
structure StreamState where
  input_tokens : Nat
  accs : List (Nat × ToolAcc)
  has_text_content : Bool
  has_tool_content : Bool
  text_block_started : Bool
deriving DecidableEq, Repr

/-- Initial loop state (openai.py lines 458-462). -/
def initStreamState : StreamState := ⟨0, [], false, false, false⟩

/-- Store an accumulator under its index (dict assignment). -/
def setAcc : List (Nat × ToolAcc) → Nat → ToolAcc → List (Nat × ToolAcc)
  | [], k, a => [(k, a)]
  | (k', a') :: rest, k, a =>
    if k' = k then (k, a) :: rest else (k', a') :: setAcc rest k a

/-- Python truthiness of `choice.get("finish_reason")`. -/
def finishTruthy : Option String → Bool
  | none => false
  | some r => r ≠ ""

/-- Whether a chunk both passes the choices guard and carries a truthy
finish reason (the loop's break condition, openai.py line 599). -/
def carriesFinish (c : StreamChunk) : Bool :=
  match c.choices with
  | [] => false
  | choice :: _ => finishTruthy choice.finish_reason

/-- The accumulator for a fragment's index after this fragment's updates
(openai.py lines 542-565): initialize if unseen, then overwrite `id`/`name`
when the fragment carries truthy values and append `arguments` text. -/
def updatedAcc (s : StreamState) (tc : ToolCallDelta) : ToolAcc :=
  let acc0 := match s.accs.lookup tc.index with
    | some a => a
    | none => ⟨tc.id, "", "", false⟩
  let acc1 := if tc.id ≠ "" then { acc0 with id := tc.id } else acc0
  match tc.function with
  | none => acc1
  | some f =>
    let a := if f.name ≠ "" then { acc1 with name := f.name } else acc1
    if f.arguments ≠ "" then { a with arguments := a.arguments ++ f.arguments } else a

/-- Whether this fragment triggers the tool `content_block_start` (openai.py
line 568): the accumulator now has a non-empty name and has not started. -/
def toolStartFires (s : StreamState) (tc : ToolCallDelta) : Bool :=
  (updatedAcc s tc).name ≠ "" && !(updatedAcc s tc).started

/-- The fragment's arguments text (`func and func.get("arguments")`,
openai.py line 587): `""` when the function or its arguments are absent. -/
def toolArgsText (tc : ToolCallDelta) : String :=
  match tc.function with
  | some f => f.arguments
  | none => ""

/-- Process one tool-call fragment (openai.py lines 538-597): update the
accumulator, emit `content_block_start` the first time the accumulator has a
non-empty name (marking it started and setting `has_tool_content`), and emit
an `input_json_delta` whenever the fragment carries arguments text. Both
events use index 1 if text content has been seen, else 0. -/
def processOneToolCall (s : StreamState) (tc : ToolCallDelta) :
    StreamState × List Event :=
  let cIdx : Nat := if s.has_text_content then 1 else 0
  let acc2 := updatedAcc s tc
  let fires := toolStartFires s tc
  ({ s with
      accs := setAcc s.accs tc.index (if fires then { acc2 with started := true } else acc2),
      has_tool_content := s.has_tool_content || fires },
   (if fires then [Event.content_block_start cIdx (.tool_use acc2.id acc2.name)] else []) ++
   (if toolArgsText tc ≠ "" then
     [Event.content_block_delta cIdx (.input_json_delta (toolArgsText tc))] else []))

/-- Process a delta's whole `tool_calls` list in order. -/
def processToolCalls (s : StreamState) : List ToolCallDelta → StreamState × List Event
  | [] => (s, [])
  | tc :: rest =>
    let r1 := processOneToolCall s tc
    let r2 := processToolCalls r1.1 rest
    (r2.1, r1.2 ++ r2.2)

/-- The `content_block_stop` events emitted on finish (openai.py lines
603-617): one for the tool block if any tool content was seen, then one for
the text block if any text was seen. -/
def stopsFor (s : StreamState) : List Event :=
  (if s.has_tool_content then
    [Event.content_block_stop (if s.has_text_content then 1 else 0)] else []) ++
  (if s.has_text_content then [Event.content_block_stop 0] else [])

/-- The `input_tokens` update on a guard-passing chunk (openai.py lines
505-506): overwrite with `prompt_tokens` when the chunk carries usage with
that key, keep the running value otherwise. -/
def usagePhase (s : StreamState) (usage : Option ChunkUsage) : StreamState :=
  match usage with
  | some u => { s with input_tokens := u.prompt_tokens.getD s.input_tokens }
  | none => s

/-- The text-delta handling (openai.py lines 509-534): on truthy `content`,
open the text block at index 0 if not yet started, then emit the text delta
at index 0. -/
def textPhase (s0 : StreamState) (content : String) : StreamState × List Event :=
  if content ≠ "" then
    (({ s0 with text_block_started := true, has_text_content := true } : StreamState),
      (if s0.text_block_started then ([] : List Event)
       else [Event.content_block_start 0 .text]) ++
      [Event.content_block_delta 0 (.text_delta content)])
  else (s0, ([] : List Event))

/-- The `completion_tokens` read on finish (openai.py lines 600-601). -/
def outTokens : Option ChunkUsage → Nat
  | some u => u.completion_tokens.getD 0
  | none => 0

/-- Process one chunk (openai.py lines 489-637): guard on `choices`, update
`input_tokens` from `usage`, emit text events, tool-call events, and — on a
truthy finish reason — the closing events; the returned flag records the
loop `break`. -/
def processChunk (s : StreamState) (c : StreamChunk) :
    StreamState × List Event × Bool :=
  match c.choices with
  | [] => (s, [], false)
  | choice :: _ =>
    let r1 := textPhase (usagePhase s c.usage) choice.delta.content
    let r2 := processToolCalls r1.1 choice.delta.tool_calls
    if finishTruthy choice.finish_reason then
      (r2.1,
       r1.2 ++ r2.2 ++ stopsFor r2.1 ++
        [Event.message_delta (convert_finish_reason choice.finish_reason)
           (outTokens c.usage),
         Event.message_stop],
       true)
    else (r2.1, r1.2 ++ r2.2, false)

/-- Process chunks in order, stopping at the first `break`. -/
def processChunks (s : StreamState) : List StreamChunk → StreamState × List Event × Bool
  | [] => (s, [], false)
  | c :: rest =>
    let r1 := processChunk s c
    if r1.2.2 then r1
    else
      let r2 := processChunks r1.1 rest
      (r2.1, r1.2.1 ++ r2.2.1, r2.2.2)

/-- The event stream of a successful backend call (openai.py lines 448-637):
`message_start` followed by the per-chunk events. -/
def stream_complete (model : String) (cs : List StreamChunk) : List Event :=
  Event.message_start model :: (processChunks initStreamState cs).2.1

/-- The event stream of a failing backend call (openai.py lines 448-663):
if the failure (connection error or non-2xx status, classified by
`classify_error`) surfaces before `raise_for_status` returns, only the
error event is emitted; if it surfaces while iterating lines after the
chunks `cs` were processed, the events so far are followed by the single
error event — unless the loop already broke on a finish reason, in which
case the stream ended before the failure could be observed. -/
def stream_complete_failing (model error_message : String) (status_code : Option Nat)
    (failed_before_start : Bool) (cs : List StreamChunk) : List Event :=
  if failed_before_start then
    [Event.error "api_error" (classify_error error_message status_code)]
  else
    let r := processChunks initStreamState cs
    if r.2.2 then Event.message_start model :: r.2.1
    else Event.message_start model :: r.2.1 ++
      [Event.error "api_error" (classify_error error_message status_code)]

/-! ## Event classification and streaming invariants -/

/-- Whether an event is a `content_block_start`. -/
def isStartEv : Event → Bool
  | .content_block_start _ _ => true
  | _ => false

/-- Whether an event is a `content_block_stop`. -/
def isStopEv : Event → Bool
  | .content_block_stop _ => true
  | _ => false

/-- Whether an event is a `content_block_stop` at the given index. -/
def isStopAt (i : Nat) : Event → Bool
  | .content_block_stop j => j == i
  | _ => false

/-- Whether an event is a `message_start`. -/
def isMsgStartEv : Event → Bool
  | .message_start _ => true
  | _ => false

/-- Whether an event is a `message_delta`. -/
def isMsgDeltaEv : Event → Bool
  | .message_delta _ _ => true
  | _ => false

/-- Whether an event is a `message_stop`. -/
def isMsgStopEv : Event → Bool
  | .message_stop => true
  | _ => false

/-- Whether an event is an `error` event. -/
def isErrorEv : Event → Bool
  | .error _ _ => true
  | _ => false

/-- The unique text-block opening event. -/
def textStartEvent : Event := Event.content_block_start 0 .text

/-- Body events are starts or deltas whose index is justified by the final
flags: an index-0 start needs text or tool content to have been seen by the
end of the chunk, an index-1 start needs both. -/
def C1BodyOK (s' : StreamState) (e : Event) : Prop :=
  (∃ idx b, e = Event.content_block_start idx b ∧
    ((idx = 0 ∧ (s'.has_text_content = true ∨ s'.has_tool_content = true)) ∨
     (idx = 1 ∧ s'.has_text_content = true ∧ s'.has_tool_content = true))) ∨
  (∃ idx d, e = Event.content_block_delta idx d)

/-- Every tool-use `content_block_start` in `evs` carries index 1 exactly
when text had been opened before it (`b` records whether text was already
open when `evs` started). -/
def SegOK (b : Bool) (evs : List Event) : Prop :=
  ∀ P idx id name S,
    evs = P ++ Event.content_block_start idx (.tool_use id name) :: S →
    idx = if b = true ∨ textStartEvent ∈ P then 1 else 0

theorem processOneToolCall_state (s : StreamState) (tc : ToolCallDelta) :
    (processOneToolCall s tc).1.has_text_content = s.has_text_content ∧
    (processOneToolCall s tc).1.text_block_started = s.text_block_started ∧
    (processOneToolCall s tc).1.input_tokens = s.input_tokens ∧
    (s.has_tool_content = true → (processOneToolCall s tc).1.has_tool_content = true) := by
  refine ⟨rfl, rfl, rfl, ?_⟩
  intro h
  show (s.has_tool_content || toolStartFires s tc) = true
  rw [h, Bool.true_or]

theorem processOneToolCall_events (s : StreamState) (tc : ToolCallDelta) :
    ∀ e ∈ (processOneToolCall s tc).2,
      ((∃ id name, e = Event.content_block_start (if s.has_text_content then 1 else 0)
          (.tool_use id name)) ∧
        (processOneToolCall s tc).1.has_tool_content = true) ∨
      (∃ f, e = Event.content_block_delta (if s.has_text_content then 1 else 0)
          (.input_json_delta f)) := by
  intro e he
  have hsnd : (processOneToolCall s tc).2 =
      (if toolStartFires s tc then
        [Event.content_block_start (if s.has_text_content then 1 else 0)
          (.tool_use (updatedAcc s tc).id (updatedAcc s tc).name)] else []) ++
      (if toolArgsText tc ≠ "" then
        [Event.content_block_delta (if s.has_text_content then 1 else 0)
          (.input_json_delta (toolArgsText tc))] else []) := rfl
  rw [hsnd] at he
  rcases List.mem_append.mp he with h | h
  · cases hf : toolStartFires s tc
    · rw [hf] at h; simp at h
    · rw [hf] at h
      simp only [if_true, List.mem_singleton] at h
      left
      refine ⟨⟨_, _, h⟩, ?_⟩
      show (s.has_tool_content || toolStartFires s tc) = true
      rw [hf, Bool.or_true]
  · by_cases ha : toolArgsText tc ≠ ""
    · rw [if_pos ha, List.mem_singleton] at h
      right; exact ⟨_, h⟩
    · rw [if_neg ha] at h; simp at h

theorem processToolCalls_state (tcs : List ToolCallDelta) : ∀ (s : StreamState),
    (processToolCalls s tcs).1.has_text_content = s.has_text_content ∧
    (processToolCalls s tcs).1.text_block_started = s.text_block_started ∧
    (processToolCalls s tcs).1.input_tokens = s.input_tokens ∧
    (s.has_tool_content = true → (processToolCalls s tcs).1.has_tool_content = true) := by
  induction tcs with
  | nil => intro s; exact ⟨rfl, rfl, rfl, fun h => h⟩
  | cons tc rest ih =>
    intro s
    obtain ⟨h1, h2, h3, h4⟩ := ih (processOneToolCall s tc).1
    obtain ⟨g1, g2, g3, g4⟩ := processOneToolCall_state s tc
    exact ⟨h1.trans g1, h2.trans g2, h3.trans g3, fun h => h4 (g4 h)⟩

theorem processToolCalls_events (tcs : List ToolCallDelta) : ∀ (s : StreamState),
    ∀ e ∈ (processToolCalls s tcs).2,
      ((∃ id name, e = Event.content_block_start (if s.has_text_content then 1 else 0)
          (.tool_use id name)) ∧
        (processToolCalls s tcs).1.has_tool_content = true) ∨
      (∃ f, e = Event.content_block_delta (if s.has_text_content then 1 else 0)
          (.input_json_delta f)) := by
  induction tcs with
  | nil => intro s e he; simp [processToolCalls] at he
  | cons tc rest ih =>
    intro s e he
    have hsplit : (processToolCalls s (tc :: rest)).2 =
        (processOneToolCall s tc).2 ++ (processToolCalls (processOneToolCall s tc).1 rest).2 := rfl
    rw [hsplit] at he
    have hfinal : (processToolCalls s (tc :: rest)).1 =
        (processToolCalls (processOneToolCall s tc).1 rest).1 := rfl
    obtain ⟨g1, -, -, g4⟩ := processToolCalls_state rest (processOneToolCall s tc).1
    obtain ⟨p1, -, -, -⟩ := processOneToolCall_state s tc
    rcases List.mem_append.mp he with h | h
    · rcases processOneToolCall_events s tc e h with ⟨hst, htool⟩ | hdel
      · left
        exact ⟨hst, by rw [hfinal]; exact g4 htool⟩
      · right; exact hdel
    · rcases ih (processOneToolCall s tc).1 e h with ⟨hst, htool⟩ | hdel
      · left
        rw [p1.symm]
        exact ⟨hst, by rw [hfinal]; exact htool⟩
      · right
        rw [p1.symm]
        exact hdel

/-- Whether an event list contains the text-block opening event. -/
def hasTextStart (evs : List Event) : Bool :=
  evs.any (fun e => e == textStartEvent)

theorem hasTextStart_iff (evs : List Event) :
    hasTextStart evs = true ↔ textStartEvent ∈ evs := by
  unfold hasTextStart
  rw [List.any_eq_true]
  constructor
  · rintro ⟨x, hx, hbeq⟩
    rw [← eq_of_beq hbeq]
    exact hx
  · intro h
    exact ⟨_, h, by rw [beq_iff_eq]⟩

theorem hasTextStart_eq_false (evs : List Event) (h : textStartEvent ∉ evs) :
    hasTextStart evs = false := by
  cases hb : hasTextStart evs
  · rfl
  · exact absurd ((hasTextStart_iff evs).mp hb) h

theorem hasTextStart_append (xs ys : List Event) :
    hasTextStart (xs ++ ys) = (hasTextStart xs || hasTextStart ys) := by
  unfold hasTextStart
  exact List.any_append

theorem usagePhase_flags (s : StreamState) (usage : Option ChunkUsage) :
    (usagePhase s usage).has_text_content = s.has_text_content ∧
    (usagePhase s usage).has_tool_content = s.has_tool_content ∧
    (usagePhase s usage).text_block_started = s.text_block_started := by
  cases usage <;> exact ⟨rfl, rfl, rfl⟩

theorem textPhase_state (s0 : StreamState) (content : String)
    (hInv : s0.text_block_started = s0.has_text_content) :
    (textPhase s0 content).1.text_block_started =
      (textPhase s0 content).1.has_text_content ∧
    (s0.has_text_content = true → (textPhase s0 content).1.has_text_content = true) ∧
    (textPhase s0 content).1.has_tool_content = s0.has_tool_content ∧
    (textPhase s0 content).1.input_tokens = s0.input_tokens ∧
    (textPhase s0 content).1.has_text_content =
      (s0.has_text_content || hasTextStart (textPhase s0 content).2) := by
  unfold textPhase
  by_cases hc : content ≠ ""
  · rw [if_pos hc]
    refine ⟨rfl, fun _ => rfl, rfl, rfl, ?_⟩
    cases hb : s0.text_block_started
    · simp [hasTextStart, textStartEvent]
    · have hx : s0.has_text_content = true := by rw [← hInv]; exact hb
      simp [hasTextStart, hx]
  · rw [if_neg hc]
    exact ⟨hInv, fun h => h, rfl, rfl, by simp [hasTextStart]⟩

theorem textPhase_events (s0 : StreamState) (content : String) :
    ∀ e ∈ (textPhase s0 content).2,
      (e = textStartEvent ∧ (textPhase s0 content).1.has_text_content = true) ∨
      (∃ t, e = Event.content_block_delta 0 (.text_delta t)) := by
  unfold textPhase
  by_cases hc : content ≠ ""
  · rw [if_pos hc]
    intro e he
    simp only [List.mem_append] at he
    rcases he with h | h
    · cases hb : s0.text_block_started
      · rw [hb] at h
        simp at h
        left
        exact ⟨h, rfl⟩
      · rw [hb] at h
        simp at h
    · simp only [List.mem_singleton] at h
      right
      exact ⟨_, h⟩
  · rw [if_neg hc]
    intro e he
    exact absurd he (List.not_mem_nil e)

theorem segOK_of_no_tool_starts (b : Bool) (evs : List Event)
    (h : ∀ idx id name, Event.content_block_start idx (.tool_use id name) ∉ evs) :
    SegOK b evs := by
  intro P idx id name S heq
  refine absurd ?_ (h idx id name)
  rw [heq]
  exact List.mem_append_right _ (List.mem_cons_self _ _)

theorem segOK_of_uniform (b : Bool) (evs : List Event)
    (hNoText : textStartEvent ∉ evs)
    (hIdx : ∀ idx id name, Event.content_block_start idx (.tool_use id name) ∈ evs →
      idx = if b = true then 1 else 0) :
    SegOK b evs := by
  intro P idx id name S heq
  have hmem : Event.content_block_start idx (.tool_use id name) ∈ evs := by
    rw [heq]
    exact List.mem_append_right _ (List.mem_cons_self _ _)
  have hP : textStartEvent ∉ P := fun hp =>
    hNoText (by rw [heq]; exact List.mem_append_left _ hp)
  rw [hIdx idx id name hmem]
  by_cases hb : b = true
  · simp [hb]
  · simp [hb, hP]

theorem segOK_append (b : Bool) (xs ys : List Event)
    (hxs : SegOK b xs) (hys : SegOK (b || hasTextStart xs) ys) :
    SegOK b (xs ++ ys) := by
  intro P idx id name S heq
  rcases List.append_eq_append_iff.mp heq with ⟨a, ha1, ha2⟩ | ⟨c, hc1, hc2⟩
  · have h := hys a idx id name S ha2
    rw [h, ha1]
    simp only [Bool.or_eq_true, hasTextStart_iff, List.mem_append, or_assoc]
  · cases c with
    | nil =>
      rw [List.append_nil] at hc1
      rw [List.nil_append] at hc2
      have h := hys [] idx id name S (by rw [List.nil_append]; exact hc2.symm)
      rw [h, ← hc1]
      simp only [Bool.or_eq_true, hasTextStart_iff, List.mem_append, List.not_mem_nil,
        or_false]
    | cons h' t =>
      rw [List.cons_append] at hc2
      injection hc2 with hh ht
      subst hh
      exact hxs P idx id name t hc1

theorem stopsFor_elems (st : StreamState) :
    ∀ e ∈ stopsFor st, ∃ i, e = Event.content_block_stop i := by
  intro e he
  unfold stopsFor at he
  rcases List.mem_append.mp he with h | h
  · by_cases h1 : st.has_tool_content = true
    · rw [if_pos h1, List.mem_singleton] at h
      exact ⟨_, h⟩
    · rw [if_neg h1] at h
      exact absurd h (List.not_mem_nil e)
  · by_cases h2 : st.has_text_content = true
    · rw [if_pos h2, List.mem_singleton] at h
      exact ⟨_, h⟩
    · rw [if_neg h2] at h
      exact absurd h (List.not_mem_nil e)

theorem processToolCalls_no_textStart (tcs : List ToolCallDelta) (s : StreamState) :
    textStartEvent ∉ (processToolCalls s tcs).2 := by
  intro h
  rcases processToolCalls_events tcs s _ h with ⟨⟨id, name, heq⟩, -⟩ | ⟨f, heq⟩ <;>
    simp [textStartEvent] at heq

theorem textPhase_no_tool_starts (s0 : StreamState) (content : String) :
    ∀ idx id name,
      Event.content_block_start idx (.tool_use id name) ∉ (textPhase s0 content).2 := by
  intro idx id name h
  rcases textPhase_events s0 content _ h with ⟨heq, -⟩ | ⟨t, heq⟩ <;>
    simp [textStartEvent] at heq

theorem processChunk_break (s : StreamState) (c : StreamChunk) :
    (processChunk s c).2.2 = carriesFinish c := by
  obtain ⟨choices, usage⟩ := c
  cases choices with
  | nil => rfl
  | cons choice rest =>
    by_cases hf : finishTruthy choice.finish_reason = true
    · simp only [processChunk, carriesFinish, hf, if_true]
    · have hf' : finishTruthy choice.finish_reason = false := by
        cases h : finishTruthy choice.finish_reason
        · rfl
        · exact absurd h hf
      simp only [processChunk, carriesFinish, hf', Bool.false_eq_true, if_false]

theorem processChunk_cons_def (s : StreamState) (choice : ChunkChoice)
    (rest : List ChunkChoice) (usage : Option ChunkUsage) :
    processChunk s ⟨choice :: rest, usage⟩ =
      (if finishTruthy choice.finish_reason then
        ((processToolCalls (textPhase (usagePhase s usage) choice.delta.content).1
            choice.delta.tool_calls).1,
         (textPhase (usagePhase s usage) choice.delta.content).2 ++
          (processToolCalls (textPhase (usagePhase s usage) choice.delta.content).1
            choice.delta.tool_calls).2 ++
          stopsFor (processToolCalls (textPhase (usagePhase s usage) choice.delta.content).1
            choice.delta.tool_calls).1 ++
          [Event.message_delta (convert_finish_reason choice.finish_reason) (outTokens usage),
           Event.message_stop],
         true)
      else
        ((processToolCalls (textPhase (usagePhase s usage) choice.delta.content).1
            choice.delta.tool_calls).1,
         (textPhase (usagePhase s usage) choice.delta.content).2 ++
          (processToolCalls (textPhase (usagePhase s usage) choice.delta.content).1
            choice.delta.tool_calls).2,
         false)) := rfl

theorem textStart_not_in_stopsFor (st : StreamState) : textStartEvent ∉ stopsFor st := by
  intro h
  obtain ⟨i, he⟩ := stopsFor_elems st _ h
  simp [textStartEvent] at he

theorem stopsFor_no_tool_starts (st : StreamState) :
    ∀ idx id name,
      Event.content_block_start idx (.tool_use id name) ∉ stopsFor st := by
  intro idx id name h
  obtain ⟨i, he⟩ := stopsFor_elems st _ h
  simp at he

theorem tail_no_tool_starts (r : Option String) (n : Nat) :
    ∀ idx id name,
      Event.content_block_start idx (.tool_use id name) ∉
        [Event.message_delta r n, Event.message_stop] := by
  intro idx id name h
  simp at h

theorem processChunk_flags (s : StreamState) (c : StreamChunk)
    (hInv : s.text_block_started = s.has_text_content) :
    (processChunk s c).1.text_block_started = (processChunk s c).1.has_text_content ∧
    (s.has_text_content = true → (processChunk s c).1.has_text_content = true) ∧
    (s.has_tool_content = true → (processChunk s c).1.has_tool_content = true) ∧
    (processChunk s c).1.has_text_content =
      (s.has_text_content || hasTextStart (processChunk s c).2.1) := by
  obtain ⟨choices, usage⟩ := c
  cases choices with
  | nil =>
    refine ⟨hInv, fun h => h, fun h => h, ?_⟩
    show s.has_text_content = (s.has_text_content || hasTextStart ([] : List Event))
    simp [hasTextStart]
  | cons choice rest =>
    have hu := usagePhase_flags s usage
    have hInv0 : (usagePhase s usage).text_block_started =
        (usagePhase s usage).has_text_content := by
      rw [hu.2.2, hu.1]; exact hInv
    have ht := textPhase_state (usagePhase s usage) choice.delta.content hInv0
    have htool := processToolCalls_state choice.delta.tool_calls
      (textPhase (usagePhase s usage) choice.delta.content).1
    rw [processChunk_cons_def]
    have hstops := hasTextStart_eq_false _ (textStart_not_in_stopsFor
      (processToolCalls (textPhase (usagePhase s usage) choice.delta.content).1
        choice.delta.tool_calls).1)
    have htoolhts := hasTextStart_eq_false _ (processToolCalls_no_textStart
      choice.delta.tool_calls (textPhase (usagePhase s usage) choice.delta.content).1)
    by_cases hf : finishTruthy choice.finish_reason = true
    · rw [if_pos hf]
      refine ⟨(htool.2.1.trans ht.1).trans htool.1.symm, ?_, ?_, ?_⟩
      · intro h
        rw [htool.1]
        exact ht.2.1 (by rw [hu.1]; exact h)
      · intro h
        exact htool.2.2.2 (by rw [ht.2.2.1, hu.2.1]; exact h)
      · have htail : hasTextStart
            [Event.message_delta (convert_finish_reason choice.finish_reason)
              (outTokens usage), Event.message_stop] = false :=
          hasTextStart_eq_false _ (by intro h; simp [textStartEvent] at h)
        show (processToolCalls _ _).1.has_text_content = _
        rw [htool.1, ht.2.2.2.2, hu.1]
        rw [hasTextStart_append, hasTextStart_append, hasTextStart_append]
        rw [htoolhts, hstops, htail]
        simp
    · rw [if_neg hf]
      refine ⟨(htool.2.1.trans ht.1).trans htool.1.symm, ?_, ?_, ?_⟩
      · intro h
        rw [htool.1]
        exact ht.2.1 (by rw [hu.1]; exact h)
      · intro h
        exact htool.2.2.2 (by rw [ht.2.2.1, hu.2.1]; exact h)
      · show (processToolCalls _ _).1.has_text_content = _
        rw [htool.1, ht.2.2.2.2, hu.1]
        rw [hasTextStart_append, htoolhts]
        simp

theorem processChunk_shape (s : StreamState) (c : StreamChunk)
    (hInv : s.text_block_started = s.has_text_content) :
    ∃ body, (∀ e ∈ body, C1BodyOK (processChunk s c).1 e) ∧
      (((processChunk s c).2.2 = true ∧ ∃ r n,
        (processChunk s c).2.1 = body ++ stopsFor (processChunk s c).1 ++
          [Event.message_delta r n, Event.message_stop]) ∨
       ((processChunk s c).2.2 = false ∧ (processChunk s c).2.1 = body)) := by
  obtain ⟨choices, usage⟩ := c
  cases choices with
  | nil => exact ⟨[], by intro e he; exact absurd he (List.not_mem_nil e), Or.inr ⟨rfl, rfl⟩⟩
  | cons choice rest =>
    have hu := usagePhase_flags s usage
    have hInv0 : (usagePhase s usage).text_block_started =
        (usagePhase s usage).has_text_content := by
      rw [hu.2.2, hu.1]; exact hInv
    have htool := processToolCalls_state choice.delta.tool_calls
      (textPhase (usagePhase s usage) choice.delta.content).1
    have hbody : ∀ e ∈ (textPhase (usagePhase s usage) choice.delta.content).2 ++
        (processToolCalls (textPhase (usagePhase s usage) choice.delta.content).1
          choice.delta.tool_calls).2,
        C1BodyOK (processToolCalls (textPhase (usagePhase s usage) choice.delta.content).1
          choice.delta.tool_calls).1 e := by
      intro e he
      rcases List.mem_append.mp he with h | h
      · rcases textPhase_events (usagePhase s usage) choice.delta.content e h with
          ⟨heq, hT⟩ | ⟨t, heq⟩
        · left
          refine ⟨0, .text, heq, Or.inl ⟨rfl, Or.inl ?_⟩⟩
          rw [htool.1]
          exact hT
        · right
          exact ⟨0, _, heq⟩
      · rcases processToolCalls_events choice.delta.tool_calls
          (textPhase (usagePhase s usage) choice.delta.content).1 e h with
          ⟨⟨id, name, heq⟩, htoolc⟩ | ⟨f, heq⟩
        · cases hb : (textPhase (usagePhase s usage) choice.delta.content).1.has_text_content
          · rw [hb] at heq
            simp only [Bool.false_eq_true, if_false] at heq
            left
            exact ⟨0, _, heq, Or.inl ⟨rfl, Or.inr htoolc⟩⟩
          · rw [hb] at heq
            simp only [if_true] at heq
            left
            refine ⟨1, _, heq, Or.inr ⟨rfl, ?_, htoolc⟩⟩
            rw [htool.1]
            exact hb
        · right
          exact ⟨_, _, heq⟩
    rw [processChunk_cons_def]
    by_cases hf : finishTruthy choice.finish_reason = true
    · rw [if_pos hf]
      refine ⟨_, hbody, Or.inl ⟨rfl, convert_finish_reason choice.finish_reason,
        outTokens usage, rfl⟩⟩
    · rw [if_neg hf]
      exact ⟨_, hbody, Or.inr ⟨rfl, rfl⟩⟩

theorem processChunk_segOK (s : StreamState) (c : StreamChunk)
    (hInv : s.text_block_started = s.has_text_content) :
    SegOK s.has_text_content (processChunk s c).2.1 := by
  obtain ⟨choices, usage⟩ := c
  cases choices with
  | nil =>
    exact segOK_of_no_tool_starts _ _
      (fun idx id name h => absurd h (List.not_mem_nil _))
  | cons choice rest =>
    have hu := usagePhase_flags s usage
    have hInv0 : (usagePhase s usage).text_block_started =
        (usagePhase s usage).has_text_content := by
      rw [hu.2.2, hu.1]; exact hInv
    have ht := textPhase_state (usagePhase s usage) choice.delta.content hInv0
    have hseg1 : SegOK s.has_text_content
        (textPhase (usagePhase s usage) choice.delta.content).2 :=
      segOK_of_no_tool_starts _ _
        (textPhase_no_tool_starts (usagePhase s usage) choice.delta.content)
    have hbase : (s.has_text_content ||
        hasTextStart (textPhase (usagePhase s usage) choice.delta.content).2) =
        (textPhase (usagePhase s usage) choice.delta.content).1.has_text_content := by
      rw [ht.2.2.2.2, hu.1]
    have hseg2 : SegOK (s.has_text_content ||
        hasTextStart (textPhase (usagePhase s usage) choice.delta.content).2)
        (processToolCalls (textPhase (usagePhase s usage) choice.delta.content).1
          choice.delta.tool_calls).2 := by
      apply segOK_of_uniform
      · exact processToolCalls_no_textStart _ _
      · intro idx id name hm
        rcases processToolCalls_events choice.delta.tool_calls
          (textPhase (usagePhase s usage) choice.delta.content).1 _ hm with
          ⟨⟨id', name', heq⟩, -⟩ | ⟨f, heq⟩
        · rw [hbase]
          simp only [Event.content_block_start.injEq] at heq
          exact heq.1
        · simp at heq
    have hseg12 : SegOK s.has_text_content
        ((textPhase (usagePhase s usage) choice.delta.content).2 ++
          (processToolCalls (textPhase (usagePhase s usage) choice.delta.content).1
            choice.delta.tool_calls).2) :=
      segOK_append _ _ _ hseg1 hseg2
    rw [processChunk_cons_def]
    by_cases hf : finishTruthy choice.finish_reason = true
    · rw [if_pos hf]
      apply segOK_append
      · apply segOK_append
        · exact hseg12
        · exact segOK_of_no_tool_starts _ _ (stopsFor_no_tool_starts _)
      · exact segOK_of_no_tool_starts _ _ (tail_no_tool_starts _ _)
    · rw [if_neg hf]
      exact hseg12

theorem processChunks_cons_def (s : StreamState) (c : StreamChunk)
    (rest : List StreamChunk) :
    processChunks s (c :: rest) =
      (if (processChunk s c).2.2 then processChunk s c
       else ((processChunks (processChunk s c).1 rest).1,
             (processChunk s c).2.1 ++ (processChunks (processChunk s c).1 rest).2.1,
             (processChunks (processChunk s c).1 rest).2.2)) := rfl

theorem C1BodyOK_mono (s1 s2 : StreamState)
    (htx : s1.has_text_content = true → s2.has_text_content = true)
    (htl : s1.has_tool_content = true → s2.has_tool_content = true) :
    ∀ e, C1BodyOK s1 e → C1BodyOK s2 e := by
  intro e h
  rcases h with ⟨idx, b, heq, hcase⟩ | hdel
  · left
    refine ⟨idx, b, heq, ?_⟩
    rcases hcase with ⟨h0, hor⟩ | ⟨h1, ha, hb⟩
    · exact Or.inl ⟨h0, hor.elim (fun h => Or.inl (htx h)) (fun h => Or.inr (htl h))⟩
    · exact Or.inr ⟨h1, htx ha, htl hb⟩
  · right
    exact hdel

theorem processChunks_main (cs : List StreamChunk) : ∀ (s : StreamState),
    s.text_block_started = s.has_text_content →
    (processChunks s cs).1.text_block_started = (processChunks s cs).1.has_text_content ∧
    (s.has_text_content = true → (processChunks s cs).1.has_text_content = true) ∧
    (s.has_tool_content = true → (processChunks s cs).1.has_tool_content = true) ∧
    (processChunks s cs).2.2 = cs.any carriesFinish ∧
    ∃ body, (∀ e ∈ body, C1BodyOK (processChunks s cs).1 e) ∧
      (((processChunks s cs).2.2 = true ∧ ∃ r n,
        (processChunks s cs).2.1 = body ++ stopsFor (processChunks s cs).1 ++
          [Event.message_delta r n, Event.message_stop]) ∨
       ((processChunks s cs).2.2 = false ∧ (processChunks s cs).2.1 = body)) := by
  induction cs with
  | nil =>
    intro s hInv
    exact ⟨hInv, fun h => h, fun h => h, rfl,
      ⟨[], fun e he => absurd he (List.not_mem_nil e), Or.inr ⟨rfl, rfl⟩⟩⟩
  | cons c rest ih =>
    intro s hInv
    have hcf := processChunk_flags s c hInv
    have hcb := processChunk_break s c
    have hcs := processChunk_shape s c hInv
    rw [processChunks_cons_def]
    by_cases hb : (processChunk s c).2.2 = true
    · rw [if_pos hb]
      refine ⟨hcf.1, hcf.2.1, hcf.2.2.1, ?_, hcs⟩
      rw [List.any_cons, ← hcb, hb, Bool.true_or]
    · rw [if_neg hb]
      have hb' : (processChunk s c).2.2 = false := by
        cases h : (processChunk s c).2.2
        · rfl
        · exact absurd h hb
      obtain ⟨ihInv, ihtx, ihtl, ihbrk, body2, ihbody, ihdisj⟩ :=
        ih (processChunk s c).1 hcf.1
      obtain ⟨body1, hbody1, hdisj1⟩ := hcs
      have hevs1 : (processChunk s c).2.1 = body1 := by
        rcases hdisj1 with ⟨ht, -⟩ | ⟨-, h⟩
        · exact absurd ht hb
        · exact h
      refine ⟨ihInv, fun h => ihtx (hcf.2.1 h), fun h => ihtl (hcf.2.2.1 h), ?_, ?_⟩
      · rw [List.any_cons, ← hcb, hb', Bool.false_or]
        exact ihbrk
      · refine ⟨body1 ++ body2, ?_, ?_⟩
        · intro e he
          rcases List.mem_append.mp he with h | h
          · exact C1BodyOK_mono (processChunk s c).1 _ ihtx ihtl e (hbody1 e h)
          · exact ihbody e h
        · rcases ihdisj with ⟨ht, r, n, hsh⟩ | ⟨hff, hsh⟩
          · left
            refine ⟨ht, r, n, ?_⟩
            rw [hevs1, hsh]
            simp [List.append_assoc]
          · right
            refine ⟨hff, ?_⟩
            rw [hevs1, hsh]

theorem processChunks_segOK (cs : List StreamChunk) : ∀ (s : StreamState),
    s.text_block_started = s.has_text_content →
    SegOK s.has_text_content (processChunks s cs).2.1 := by
  induction cs with
  | nil =>
    intro s hInv
    exact segOK_of_no_tool_starts _ _
      (fun idx id name h => absurd h (List.not_mem_nil _))
  | cons c rest ih =>
    intro s hInv
    have hcf := processChunk_flags s c hInv
    rw [processChunks_cons_def]
    by_cases hb : (processChunk s c).2.2 = true
    · rw [if_pos hb]
      exact processChunk_segOK s c hInv
    · rw [if_neg hb]
      apply segOK_append
      · exact processChunk_segOK s c hInv
      · rw [← hcf.2.2.2]
        exact ih (processChunk s c).1 hcf.1

theorem processChunks_append_of_any (cs : List StreamChunk) :
    ∀ (s : StreamState) (extra : List StreamChunk),
      cs.any carriesFinish = true →
      processChunks s (cs ++ extra) = processChunks s cs := by
  induction cs with
  | nil => intro s extra hf; simp at hf
  | cons c rest ih =>
    intro s extra hf
    rw [List.cons_append, processChunks_cons_def, processChunks_cons_def]
    by_cases hb : (processChunk s c).2.2 = true
    · rw [if_pos hb, if_pos hb]
    · rw [if_neg hb, if_neg hb]
      have hany : rest.any carriesFinish = true := by
        rw [List.any_cons] at hf
        rcases (Bool.or_eq_true _ _).mp hf with h | h
        · rw [← processChunk_break s c] at h
          exact absurd h hb
        · exact h
      rw [ih (processChunk s c).1 extra hany]

/-- Counterexample for C2: with two distinct tool calls and no text, the
code emits BOTH tool-use `content_block_start` events at index 0 — there is
no per-tool ordinal offset, contrary to the claim's `(text ? 1 : 0) + k`. -/
theorem stream_tool_start_no_ordinal_offset :
    stream_complete "m"
      [⟨[⟨⟨"", [⟨0, "a", some ⟨"f", ""⟩⟩]⟩, none⟩], none⟩,
       ⟨[⟨⟨"", [⟨1, "b", some ⟨"g", ""⟩⟩]⟩, none⟩], none⟩,
       ⟨[⟨⟨"", []⟩, some "stop"⟩], none⟩] =
      [Event.message_start "m",
       Event.content_block_start 0 (.tool_use "a" "f"),
       Event.content_block_start 0 (.tool_use "b" "g"),
       Event.content_block_stop 0,
       Event.message_delta (some "end_turn") 0,
       Event.message_stop] ∧
    Event.content_block_start 1 (.tool_use "b" "g") ∉
      stream_complete "m"
        [⟨[⟨⟨"", [⟨0, "a", some ⟨"f", ""⟩⟩]⟩, none⟩], none⟩,
         ⟨[⟨⟨"", [⟨1, "b", some ⟨"g", ""⟩⟩]⟩, none⟩], none⟩,
         ⟨[⟨⟨"", []⟩, some "stop"⟩], none⟩] := by
  exact ⟨rfl, by decide⟩

/-- Claim C2 (amended): every tool-use `content_block_start` emitted by the
streaming re-framer carries index 1 if the text block was opened earlier in
the event stream and index 0 otherwise, for every tool call alike; the
tool call's ordinal position contributes nothing to the index. -/
theorem stream_tool_start_index (model : String) (cs : List StreamChunk)
    (P : List Event) (idx : Nat) (id name : String) (S : List Event)
    (h : stream_complete model cs =
      P ++ Event.content_block_start idx (.tool_use id name) :: S) :
    idx = if textStartEvent ∈ P then 1 else 0 := by
  have h1 : SegOK false [Event.message_start model] :=
    segOK_of_no_tool_starts _ _ (by intro idx' id' name' hm; simp at hm)
  have hh : hasTextStart [Event.message_start model] = false :=
    hasTextStart_eq_false _ (by intro hm; simp [textStartEvent] at hm)
  have h2 : SegOK (false || hasTextStart [Event.message_start model])
      (processChunks initStreamState cs).2.1 := by
    rw [hh]
    exact processChunks_segOK cs initStreamState rfl
  have hseg := segOK_append false [Event.message_start model] _ h1 h2
  rw [List.singleton_append] at hseg
  have hres := hseg P idx id name S h
  simpa using hres

/-- Witness for C2 (amended): a single no-text tool call opens its block at
index 0. -/
theorem stream_tool_start_index_witness :
    (0 : Nat) = if textStartEvent ∈ [Event.message_start "m"] then 1 else 0 := by
  exact stream_tool_start_index "m"
    [⟨[⟨⟨"", [⟨0, "a", some ⟨"f", ""⟩⟩]⟩, none⟩], none⟩]
    [Event.message_start "m"] 0 "a" "f" [] rfl

theorem C1BodyOK_preds (st : StreamState) (e : Event) (h : C1BodyOK st e) :
    isMsgStartEv e = false ∧ isMsgDeltaEv e = false ∧ isMsgStopEv e = false ∧
    isStopEv e = false ∧ isErrorEv e = false ∧ ∀ i, isStopAt i e = false := by
  rcases h with ⟨idx, b, heq, -⟩ | ⟨idx, d, heq⟩ <;> subst heq <;>
    exact ⟨rfl, rfl, rfl, rfl, rfl, fun i => rfl⟩

theorem stopsFor_count0 (st : StreamState)
    (h : st.has_text_content = true ∨ st.has_tool_content = true) :
    (stopsFor st).countP (isStopAt 0) = 1 := by
  unfold stopsFor
  cases h1 : st.has_tool_content <;> cases h2 : st.has_text_content
  · simp [h1, h2] at h
  · simp only [h1, h2]
    decide
  · simp only [h1, h2]
    decide
  · simp only [h1, h2]
    decide

theorem stopsFor_count1 (st : StreamState)
    (h : st.has_text_content = true ∧ st.has_tool_content = true) :
    (stopsFor st).countP (isStopAt 1) = 1 := by
  unfold stopsFor
  rw [h.1, h.2]
  decide

theorem startsBeforeStops (L X Y : List Event) (hL : L = X ++ Y)
    (hX : ∀ e ∈ X, isStopEv e = false) (hY : ∀ e ∈ Y, isStartEv e = false) :
    ∀ (i j : Nat) (hi : i < L.length) (hj : j < L.length),
      isStartEv (L.get ⟨i, hi⟩) = true → isStopEv (L.get ⟨j, hj⟩) = true → i < j := by
  subst hL
  intro i j hi hj hsi hsj
  have hjge : X.length ≤ j := by
    by_contra hlt
    push_neg at hlt
    have hg : (X ++ Y).get ⟨j, hj⟩ = X[j] := by
      rw [List.get_eq_getElem]
      exact List.getElem_append_left hlt
    have hmem : (X ++ Y).get ⟨j, hj⟩ ∈ X := by
      rw [hg]
      exact List.getElem_mem _
    rw [hX _ hmem] at hsj
    simp at hsj
  have hilt : i < X.length := by
    by_contra hge
    push_neg at hge
    have hmem : (X ++ Y).get ⟨i, hi⟩ ∈ Y := by
      rw [List.get_eq_getElem, List.getElem_append_right hge]
      exact List.getElem_mem _
    rw [hY _ hmem] at hsi
    simp at hsi
  exact lt_of_lt_of_le hilt hjge

/-- Claim C1: for every finite backend chunk sequence ending in a chunk
carrying a finish reason, the emitted event sequence begins with exactly one
`message_start`; every `content_block_start` has exactly one
`content_block_stop` with the same index, and all stops come after all
starts; the sequence ends with exactly one `message_delta` followed by
exactly one `message_stop`; and chunks after the finishing one are never
read (appending them changes nothing). -/
theorem stream_event_ordering (model : String) (cs : List StreamChunk)
    (clast : StreamChunk) (hlast : cs.getLast? = some clast)
    (hfin : carriesFinish clast = true) :
    (stream_complete model cs).head? = some (Event.message_start model) ∧
    (stream_complete model cs).countP isMsgStartEv = 1 ∧
    (∀ idx b, Event.content_block_start idx b ∈ stream_complete model cs →
      (stream_complete model cs).countP (isStopAt idx) = 1) ∧
    (∀ (i j : Nat) (hi : i < (stream_complete model cs).length)
        (hj : j < (stream_complete model cs).length),
      isStartEv ((stream_complete model cs).get ⟨i, hi⟩) = true →
      isStopEv ((stream_complete model cs).get ⟨j, hj⟩) = true → i < j) ∧
    (stream_complete model cs).countP isMsgDeltaEv = 1 ∧
    (stream_complete model cs).countP isMsgStopEv = 1 ∧
    (∃ p r n, stream_complete model cs =
      p ++ [Event.message_delta r n, Event.message_stop]) ∧
    ∀ extra, stream_complete model (cs ++ extra) = stream_complete model cs := by
  have hany : cs.any carriesFinish = true :=
    List.any_eq_true.mpr ⟨clast, List.mem_of_getLast?_eq_some hlast, hfin⟩
  obtain ⟨hInv', htx', htl', hbrkeq, body, hbody, hdisj⟩ :=
    processChunks_main cs initStreamState rfl
  have hbrk : (processChunks initStreamState cs).2.2 = true := by
    rw [hbrkeq]; exact hany
  rcases hdisj with ⟨-, r, n, hsh⟩ | ⟨hff, -⟩
  swap
  · rw [hbrk] at hff
    simp at hff
  have hout : stream_complete model cs =
      Event.message_start model ::
        (body ++ stopsFor (processChunks initStreamState cs).1 ++
          [Event.message_delta r n, Event.message_stop]) := by
    unfold stream_complete
    rw [hsh]
  have hbody0 : ∀ p : Event → Bool,
      (∀ e, C1BodyOK (processChunks initStreamState cs).1 e → p e = false) →
      body.countP p = 0 := by
    intro p hp
    rw [List.countP_eq_zero]
    intro a ha
    rw [hp a (hbody a ha)]
    simp
  have hstops0 : ∀ p : Event → Bool,
      (∀ i : Nat, p (Event.content_block_stop i) = false) →
      (stopsFor (processChunks initStreamState cs).1).countP p = 0 := by
    intro p hp
    rw [List.countP_eq_zero]
    intro a ha
    obtain ⟨i, rfl⟩ := stopsFor_elems _ a ha
    rw [hp i]
    simp
  refine ⟨?_, ?_, ?_, ?_, ?_, ?_, ?_, ?_⟩
  · rw [hout]
    rfl
  · rw [hout, List.countP_cons, List.countP_append, List.countP_append]
    rw [hbody0 isMsgStartEv (fun e he => (C1BodyOK_preds _ e he).1)]
    rw [hstops0 isMsgStartEv (fun i => rfl)]
    simp [List.countP_cons, isMsgStartEv]
  · intro idx b hmem
    rw [hout] at hmem
    rcases List.mem_cons.mp hmem with heq | hmem2
    · simp at heq
    · rcases List.mem_append.mp hmem2 with hm3 | htail
      · rcases List.mem_append.mp hm3 with hbod | hstop
        · have hc := hbody _ hbod
          rcases hc with ⟨idx', b', heq, hcase⟩ | ⟨idx', d', heq⟩
          · have hidx : idx = idx' := by
              injection heq with h1 h2
            rw [hout, List.countP_cons, List.countP_append, List.countP_append]
            rw [hbody0 (isStopAt idx)
              (fun e he => ((C1BodyOK_preds _ e he).2.2.2.2.2) idx)]
            rcases hcase with ⟨h0, hor⟩ | ⟨h1', hta, htl2⟩
            · rw [hidx, h0]
              rw [stopsFor_count0 _ hor]
              simp [List.countP_cons, isStopAt]
            · rw [hidx, h1']
              rw [stopsFor_count1 _ ⟨hta, htl2⟩]
              simp [List.countP_cons, isStopAt]
          · simp at heq
        · obtain ⟨i, hEvEq⟩ := stopsFor_elems _ _ hstop
          simp at hEvEq
      · simp at htail
  · apply startsBeforeStops _ (Event.message_start model :: body)
      (stopsFor (processChunks initStreamState cs).1 ++
        [Event.message_delta r n, Event.message_stop])
    · rw [hout]
      simp [List.append_assoc]
    · intro e he
      rcases List.mem_cons.mp he with heq | hb
      · rw [heq]
        rfl
      · exact (C1BodyOK_preds _ e (hbody e hb)).2.2.2.1
    · intro e he
      rcases List.mem_append.mp he with hs | ht
      · obtain ⟨i, rfl⟩ := stopsFor_elems _ _ hs
        rfl
      · rcases List.mem_cons.mp ht with heq | ht2
        · rw [heq]
          rfl
        · rcases List.mem_cons.mp ht2 with heq | ht3
          · rw [heq]
            rfl
          · exact absurd ht3 (List.not_mem_nil e)
  · rw [hout, List.countP_cons, List.countP_append, List.countP_append]
    rw [hbody0 isMsgDeltaEv (fun e he => (C1BodyOK_preds _ e he).2.1)]
    rw [hstops0 isMsgDeltaEv (fun i => rfl)]
    simp [List.countP_cons, isMsgDeltaEv]
  · rw [hout, List.countP_cons, List.countP_append, List.countP_append]
    rw [hbody0 isMsgStopEv (fun e he => (C1BodyOK_preds _ e he).2.2.1)]
    rw [hstops0 isMsgStopEv (fun i => rfl)]
    simp [List.countP_cons, isMsgStopEv]
  · refine ⟨Event.message_start model ::
      (body ++ stopsFor (processChunks initStreamState cs).1), r, n, ?_⟩
    rw [hout]
    simp [List.append_assoc]
  · intro extra
    unfold stream_complete
    rw [processChunks_append_of_any cs initStreamState extra hany]

/-- Witness for C1: the ordering invariant evaluated on a concrete one-chunk
stream ending in a finish reason. -/
theorem stream_event_ordering_witness :
    (stream_complete "m" [⟨[⟨⟨"Hi", []⟩, some "stop"⟩], none⟩]).countP
      isMsgDeltaEv = 1 ∧
    (stream_complete "m" [⟨[⟨⟨"Hi", []⟩, some "stop"⟩], none⟩]).countP
      isMsgStopEv = 1 ∧
    (stream_complete "m" [⟨[⟨⟨"Hi", []⟩, some "stop"⟩], none⟩]).head? =
      some (Event.message_start "m") := by
  have h := stream_event_ordering "m" [⟨[⟨⟨"Hi", []⟩, some "stop"⟩], none⟩]
    ⟨[⟨⟨"Hi", []⟩, some "stop"⟩], none⟩ rfl (by decide)
  exact ⟨h.2.2.2.2.1, h.2.2.2.2.2.1, h.1⟩

theorem textPhase_input (s0 : StreamState) (content : String) :
    (textPhase s0 content).1.input_tokens = s0.input_tokens := by
  unfold textPhase
  by_cases hc : content ≠ ""
  · rw [if_pos hc]
  · rw [if_neg hc]

/-- Counterexample for C7: a chunk carrying usage but an empty `choices`
list is skipped by the guard before the usage update, so its
`prompt_tokens` (42) is ignored and the running count stays 0. -/
theorem stream_usage_only_chunk_ignored :
    (processChunks initStreamState [⟨[], some ⟨some 42, some 7⟩⟩]).1.input_tokens = 0 ∧
    (0 : Nat) ≠ 42 := by
  exact ⟨rfl, by decide⟩

/-- Claim C7 (amended): on every chunk that passes the choices guard
(non-empty `choices`) and carries a usage object, the running input-token
count is overwritten with that chunk's `prompt_tokens` when present (the
latest value wins; values are never summed), regardless of the chunk's
other contents; a chunk with an empty `choices` list is skipped entirely,
usage included. -/
theorem stream_input_tokens_update (s : StreamState) (c : StreamChunk) :
    (∀ choice rest u, c.choices = choice :: rest → c.usage = some u →
      (processChunk s c).1.input_tokens = u.prompt_tokens.getD s.input_tokens) ∧
    (c.choices = [] → (processChunk s c).1 = s) := by
  obtain ⟨choices, usage⟩ := c
  constructor
  · intro choice rest u hch hu
    cases choices with
    | nil => simp at hch
    | cons ch rs =>
      injection hch with h1 h2
      subst h1
      subst h2
      simp only at hu
      subst hu
      rw [processChunk_cons_def]
      have h1 := (processToolCalls_state ch.delta.tool_calls
        (textPhase (usagePhase s (some u)) ch.delta.content).1).2.2.1
      by_cases hf : finishTruthy ch.finish_reason = true
      · rw [if_pos hf]
        show (processToolCalls _ _).1.input_tokens = _
        rw [h1, textPhase_input]
        rfl
      · rw [if_neg hf]
        show (processToolCalls _ _).1.input_tokens = _
        rw [h1, textPhase_input]
        rfl
  · intro hch
    cases choices with
    | nil => rfl
    | cons ch rs => simp at hch

/-- Witness for C7 (amended): a guard-passing chunk with
`prompt_tokens = 42` sets the running count to 42. -/
theorem stream_input_tokens_update_witness :
    (processChunk initStreamState
      ⟨[⟨⟨"", []⟩, none⟩], some ⟨some 42, none⟩⟩).1.input_tokens = 42 := by
  exact (stream_input_tokens_update initStreamState
    ⟨[⟨⟨"", []⟩, none⟩], some ⟨some 42, none⟩⟩).1 ⟨⟨"", []⟩, none⟩ [] ⟨some 42, none⟩
    rfl rfl

/-- Claim C8: if the backend call fails (connection error or non-2xx
status) at any point — before the stream opens or mid-stream — the emitted
event sequence consists of the events so far followed by exactly one
`{type:"error", error:{type:"api_error", message: <classified message>}}`
event as its final element; no block or message events follow it. -/
theorem stream_error_terminates (model raw : String) (status : Option Nat)
    (failed_before_start : Bool) (cs : List StreamChunk)
    (hnf : cs.any carriesFinish = false) :
    ∃ p, stream_complete_failing model raw status failed_before_start cs =
        p ++ [Event.error "api_error" (classify_error raw status)] ∧
      ∀ e ∈ p, isErrorEv e = false := by
  obtain ⟨-, -, -, hbrkeq, body, hbody, hdisj⟩ :=
    processChunks_main cs initStreamState rfl
  have hbrk : (processChunks initStreamState cs).2.2 = false := by
    rw [hbrkeq]; exact hnf
  unfold stream_complete_failing
  cases failed_before_start
  · rcases hdisj with ⟨ht, -⟩ | ⟨-, hb⟩
    · rw [hbrk] at ht
      simp at ht
    · refine ⟨Event.message_start model :: body, ?_, ?_⟩
      · simp only [hbrk, Bool.false_eq_true, if_false, hb]
      · intro e he
        rcases List.mem_cons.mp he with heq | hbmem
        · rw [heq]
          rfl
        · exact (C1BodyOK_preds _ e (hbody e hbmem)).2.2.2.2.1
  · exact ⟨[], rfl, fun e he => absurd he (List.not_mem_nil e)⟩

/-- Witness for C8: a mid-stream connection failure after one text chunk
yields the prior events followed by the single classified error event. -/
theorem stream_error_terminates_witness :
    ∃ p, stream_complete_failing "m" "connection refused" none false
        [⟨[⟨⟨"Hi", []⟩, none⟩], none⟩] =
      p ++ [Event.error "api_error" (classify_error "connection refused" none)] ∧
      ∀ e ∈ p, isErrorEv e = false := by
  exact stream_error_terminates "m" "connection refused" none false
    [⟨[⟨⟨"Hi", []⟩, none⟩], none⟩] rfl
